import Mathlib

/-!
Verification of the Spanner SQL query-plan display core
(`googlecloudsdk/command_lib/spanner/sql.py`): the property lookup
`_GetAdditionalProperty`, the reverse-scan plan-tree builder
`_ConvertToTree`, and the recursive renderer `Node.PrettyPrint`.

The Python functions are shallowly embedded: the plan-node dictionary
becomes an association list, Python `KeyError` becomes an `Except` error,
Python `None` results become `Option`, and the truthiness test
`if node.index:` is modelled exactly (false for both an absent index and
the integer 0).
-/

set_option autoImplicit false

/-- A `childLink` entry of a plan-node record: a reference to a child by
its integer index. -/
structure ChildLink where
  childIndex : Nat
  deriving Repr, DecidableEq

/-- A `PlanNode` record as delivered by the server: an optional integer
`index` (absent for the root record), a `kind` string, a `displayName`
string and an ordered list of `childLinks`. -/
structure PlanNode where
  index : Option Nat
  kind : String
  displayName : String
  childLinks : List ChildLink
  deriving Repr, DecidableEq

/-- A key/value property entry; the value may be structurally absent
(Python `hasattr(prop, 'value')` is false). -/
structure Property where
  key : String
  value : Option String
  deriving Repr, DecidableEq

/-- The `Node` class: wraps one `PlanNode` record and owns an ordered
list of child nodes. -/
inductive Node where
  | mk (properties : PlanNode) (children : List Node)
  deriving Repr

/-- Projection for the `properties` attribute of `Node`. -/
def Node.properties : Node → PlanNode
  | .mk p _ => p

/-- Projection for the `children` attribute of `Node`. -/
def Node.children : Node → List Node
  | .mk _ cs => cs

/-- Python `KeyError` raised by `node_dict[link.childIndex]`. -/
inductive TreeError where
  | keyError (missing : Nat)
  deriving Repr, DecidableEq

/-- Embedding of `_GetAdditionalProperty(properties, property_key,
not_found_value)`: scan the list in order; at the first entry whose key
matches, return its value if it has one, otherwise break and return the
default; if no entry matches, return the default. -/
def _GetAdditionalProperty (properties : List Property) (property_key : String)
    (not_found_value : String := "Unknown") : String :=
  match properties with
  | [] => not_found_value
  | prop :: rest =>
    if prop.key = property_key then
      match prop.value with
      | some v => v
      | none => not_found_value
    else _GetAdditionalProperty rest property_key not_found_value

/-- Python dictionary lookup `node_dict[k]` over the association-list
model of `node_dict` (most recent insertion first). -/
def lookupDict : List (Nat × Node) → Nat → Option Node
  | [], _ => none
  | (k, n) :: d, j => if k = j then some n else lookupDict d j

/-- The inner loop `for link in node.childLinks:
n.children.append(node_dict[link.childIndex])`: look every link up in the
dictionary, in order; a missing key raises `KeyError`. -/
def buildChildren : List ChildLink → List (Nat × Node) → Except TreeError (List Node)
  | [], _ => Except.ok []
  | l :: ls, d =>
    match lookupDict d l.childIndex with
    | none => Except.error (TreeError.keyError l.childIndex)
    | some c =>
      match buildChildren ls d with
      | Except.error e => Except.error e
      | Except.ok cs => Except.ok (c :: cs)

/-- The body of `_ConvertToTree`'s loop, already applied to the reversed
list: build the node's children from the dictionary; then `if node.index:`
(Python truthiness: false for `None` and for `0`) either store the node
under its index and continue, or stop and return the node. An exhausted
loop falls off the end of the function and returns `None`. -/
def convertLoop : List PlanNode → List (Nat × Node) → Except TreeError (Option Node)
  | [], _ => Except.ok none
  | p :: rest, d =>
    match buildChildren p.childLinks d with
    | Except.error e => Except.error e
    | Except.ok cs =>
      match p.index with
      | some k =>
        if k = 0 then Except.ok (some (Node.mk p cs))
        else convertLoop rest ((k, Node.mk p cs) :: d)
      | none => Except.ok (some (Node.mk p cs))

/-- Embedding of `_ConvertToTree(plan_nodes)`: scan the records in
reverse order starting from an empty dictionary. -/
def _ConvertToTree (plan_nodes : List PlanNode) : Except TreeError (Option Node) :=
  convertLoop plan_nodes.reverse []

/-- Python truthiness of the `index` field: `if node.index:` is true
exactly when the index is present and nonzero. -/
def indexTruthy : Option Nat → Bool
  | none => false
  | some k => k != 0

mutual

/-- Embedding of `Node.PrettyPrint`: emit this node's line
(`prepend + stub + " " + kind + " " + displayName`), then render the
children in order with the extended prefix; the output stream is modelled
as the list of printed lines. -/
def prettyPrint : Node → String → Bool → Bool → List String
  | Node.mk props children, prepend, is_last, is_root =>
    let stub := if is_root then "" else if is_last then "\\-" else "+-"
    let line := prepend ++ stub ++ " " ++ props.kind ++ " " ++ props.displayName
    let child_prepend := prepend ++ (if is_last then " " else "|") ++ "   "
    line :: renderChildren children child_prepend

/-- The `for idx, child in enumerate(self.children)` loop of
`PrettyPrint`: every child is rendered with `is_last` true exactly for
the final child and `is_root` false. -/
def renderChildren : List Node → String → List String
  | [], _ => []
  | [c], pre => prettyPrint c pre true false
  | c :: c2 :: cs, pre => prettyPrint c pre false false ++ renderChildren (c2 :: cs) pre

end

/-- The failure modes of `DisplayQueryPlan`: a propagated `KeyError` from
the builder, or the `AttributeError` from calling `PrettyPrint` on the
`None` that `_ConvertToTree` returns when its scan is exhausted. -/
inductive DisplayError where
  | lookupFailed (missing : Nat)
  | attributeError
  deriving Repr, DecidableEq

/-- Embedding of `DisplayQueryPlan`: build the tree, then pretty-print it
with the default arguments (`prepend=None`→`''`, `is_last=True`,
`is_root=True`). No lines are produced when the build fails. -/
def displayQueryPlan (plan_nodes : List PlanNode) : Except DisplayError (List String) :=
  match _ConvertToTree plan_nodes with
  | Except.error (TreeError.keyError k) => Except.error (DisplayError.lookupFailed k)
  | Except.ok none => Except.error DisplayError.attributeError
  | Except.ok (some n) => Except.ok (prettyPrint n "" true true)

/-- The list of child indices referenced by one record's `childLinks`. -/
def refsOf (p : PlanNode) : List Nat :=
  p.childLinks.map ChildLink.childIndex

/-- All indices assigned to records of the list, in order. -/
def idxOf (ps : List PlanNode) : List Nat :=
  ps.filterMap PlanNode.index

/-- All child indices referenced anywhere in the list, in order. -/
def allRefs : List PlanNode → List Nat
  | [] => []
  | p :: t => refsOf p ++ allRefs t

/-- Does some record of `t` carry index `k`? -/
def resolvesIn (k : Nat) (t : List PlanNode) : Bool :=
  t.any (fun c => c.index == some k)

/-- The "children appear after parents" invariant: every child index
referenced by a record resolves among the records strictly after it. -/
def fwdClosed : List PlanNode → Bool
  | [] => true
  | p :: t => (refsOf p).all (fun k => resolvesIn k t) && fwdClosed t

/-- The full input invariant of spec section 3: exactly one record with
no index, assigned indices pairwise distinct, children after parents, and
every assigned index referenced by exactly one child link (so the
reference graph is a tree rooted at the indexless record). -/
def WF3 (ps : List PlanNode) : Prop :=
  ps.countP (fun p => p.index == none) = 1 ∧
  (idxOf ps).Nodup ∧
  fwdClosed ps = true ∧
  (allRefs ps).Perm (idxOf ps)

instance (ps : List PlanNode) : Decidable (WF3 ps) := by
  unfold WF3; infer_instance

/-- Find the first record of the pool carrying index `k`, returning it
together with the records strictly after it. -/
def findTail (k : Nat) : List PlanNode → Option (PlanNode × List PlanNode)
  | [] => none
  | p :: t => if p.index = some k then some (p, t) else findTail k t

mutual

/-- Modelled from the spec (sections 4.1 and 9): the tree that the input
denotes, built by explicit recursion — a node wraps its record and has
one subtree per child link, each child found among the records after it.
This is the specification-side definition against which `_ConvertToTree`
is compared. -/
def specBuildNode (r : PlanNode) (pool : List PlanNode) : Option Node :=
  Option.map (Node.mk r) (specBuildForest r.childLinks pool)
termination_by (pool.length, 1, 0)
decreasing_by
  exact Prod.Lex.right _ (Prod.Lex.left _ _ Nat.zero_lt_one)

/-- Modelled from the spec: the forest of subtrees for a list of child
links, each resolved against the pool of records. -/
def specBuildForest : List ChildLink → List PlanNode → Option (List Node)
  | [], _ => some []
  | l :: ls, pool =>
    match hf : findTail l.childIndex pool with
    | none => none
    | some (c, t) =>
      match specBuildNode c t with
      | none => none
      | some n =>
        match specBuildForest ls pool with
        | none => none
        | some ns => some (n :: ns)
termination_by links pool => (pool.length, 0, links.length)
decreasing_by
  · simp_wf
    have hlt : ∀ (pool0 : List PlanNode) (c0 : PlanNode) (t0 : List PlanNode),
        findTail l.childIndex pool0 = some (c0, t0) → t0.length < pool0.length := by
      intro pool0
      induction pool0 with
      | nil => intro c0 t0 h0; simp [findTail] at h0
      | cons p0 r0 ih0 =>
        intro c0 t0 h0
        simp only [findTail] at h0
        split at h0
        · cases h0; simp
        · exact Nat.lt_trans (ih0 c0 t0 h0) (Nat.lt_succ_self _)
    exact Prod.Lex.left _ _ (hlt pool c t hf)
  · simp_wf
    exact Prod.Lex.right _ (Prod.Lex.right _ (Nat.lt_succ_self _))

end

mutual

/-- Number of nodes of a built tree. -/
def nodeCount : Node → Nat
  | .mk _ cs => 1 + nodeCountList cs

/-- Number of nodes of a forest. -/
def nodeCountList : List Node → Nat
  | [] => 0
  | c :: cs => nodeCount c + nodeCountList cs

end

mutual

/-- The multiset (as a list) of records wrapped by the nodes of a tree. -/
def recordsOf : Node → List PlanNode
  | .mk p cs => p :: recordsList cs

/-- The records wrapped by the nodes of a forest. -/
def recordsList : List Node → List PlanNode
  | [] => []
  | c :: cs => recordsOf c ++ recordsList cs

end

/-- The example property list of the spec's stat-default test. -/
def statProps : List Property := [⟨"elapsed_time", some "5ms"⟩, ⟨"cpu_time", none⟩]

/-- The single root record of the spec's single-node rendering test. -/
def singleRootRec : PlanNode := ⟨none, "Root", "X", []⟩

/-- Root record of the spec's two-child rendering test (child links 0, 1). -/
def c1Root : PlanNode := ⟨none, "R", "X", [⟨0⟩, ⟨1⟩]⟩

/-- First child of the two-child test, at index 0. -/
def c1Child0 : PlanNode := ⟨some 0, "A", "Foo", []⟩

/-- Second child of the two-child test, at index 1. -/
def c1Child1 : PlanNode := ⟨some 1, "B", "Bar", []⟩

/-- Root record of the two-child test with positive child indices 1, 2. -/
def c1RootPos : PlanNode := ⟨none, "R", "X", [⟨1⟩, ⟨2⟩]⟩

/-- First child, moved to index 1. -/
def c1Child1Pos : PlanNode := ⟨some 1, "A", "Foo", []⟩

/-- Second child, moved to index 2. -/
def c1Child2Pos : PlanNode := ⟨some 2, "B", "Bar", []⟩

/-- A single record carrying the explicit index 0. -/
def zeroIdxRec : PlanNode := ⟨some 0, "Z", "Zed", []⟩

/-- The scan dictionary agrees with the spec-side construction over the
already-scanned suffix `b`: looking up `k` yields exactly the spec
subtree of the first record of `b` carrying index `k`. -/
def dictMatches (d : List (Nat × Node)) (b : List PlanNode) : Prop :=
  ∀ k, lookupDict d k = (findTail k b).bind (fun ct => specBuildNode ct.1 ct.2)

/-- The relation `Subnode m n` holds when `m` is `n` itself or a node
somewhere inside the subtrees of `n`. -/
inductive Subnode : Node → Node → Prop where
  | refl (n : Node) : Subnode n n
  | child {m c : Node} {p : PlanNode} {cs : List Node} :
      Subnode m c → c ∈ cs → Subnode m (Node.mk p cs)

/-- A node's children correspond position by position to the child links
of the record it wraps: the i-th child wraps the record whose index is
the i-th link's `childIndex`. -/
def childLinkMatch (m : Node) : Prop :=
  m.children.map (fun c => c.properties.index) =
    m.properties.childLinks.map (fun l => some l.childIndex)

/-- Every node stored in the dictionary satisfies `childLinkMatch`
hereditarily and is keyed by its own record's index. -/
def goodDict (d : List (Nat × Node)) : Prop :=
  ∀ k n, lookupDict d k = some n →
    (∀ m, Subnode m n → childLinkMatch m) ∧ n.properties.index = some k

/-- Child indices referenced by a list of links. -/
def linkRefs (L : List ChildLink) : List Nat :=
  L.map ChildLink.childIndex

theorem findTail_length {k : Nat} : ∀ {pool : List PlanNode} {c : PlanNode}
    {t : List PlanNode}, findTail k pool = some (c, t) → t.length < pool.length := by
  intro pool
  induction pool with
  | nil => intro c t h; simp [findTail] at h
  | cons p t ih =>
    intro c t' h
    simp only [findTail] at h
    split at h
    · cases h; simp
    · exact Nat.lt_trans (ih h) (Nat.lt_succ_self _)

theorem lookup_scan_first_match :
    ∀ (pre : List Property) (p : Property) (suf : List Property) (key d : String),
      (∀ q ∈ pre, q.key ≠ key) → p.key = key →
      _GetAdditionalProperty (pre ++ p :: suf) key d = p.value.getD d := by
  intro pre
  induction pre with
  | nil =>
    intro p suf key d _ hp
    simp only [List.nil_append, _GetAdditionalProperty, hp, if_true]
    cases p.value <;> rfl
  | cons q pre ih =>
    intro p suf key d hpre hp
    have hq : q.key ≠ key := hpre q (List.mem_cons_self q pre)
    simp only [List.cons_append, _GetAdditionalProperty, hq, if_false]
    exact ih p suf key d (fun r hr => hpre r (List.mem_cons_of_mem q hr)) hp

theorem lookup_no_match :
    ∀ (props : List Property) (key d : String),
      (∀ q ∈ props, q.key ≠ key) → _GetAdditionalProperty props key d = d := by
  intro props
  induction props with
  | nil => intro key d _; rfl
  | cons q props ih =>
    intro key d hprops
    have hq : q.key ≠ key := hprops q (List.mem_cons_self q props)
    simp only [_GetAdditionalProperty, hq, if_false]
    exact ih key d (fun r hr => hprops r (List.mem_cons_of_mem q hr))

/-- C7: the property lookup scans the list in order and returns the value
of the first entry whose key matches; if that entry has no value, or no
entry matches, it returns the default; later duplicates are ignored (the
result is determined by the segment up to and including the first match);
and on the spec's example list it returns "Unknown" for `cpu_time`, "5ms"
for `elapsed_time` and "Unknown" for `rows_scanned`. -/
theorem c7_property_lookup :
    (∀ (pre : List Property) (p : Property) (suf : List Property) (key d : String),
        (∀ q ∈ pre, q.key ≠ key) → p.key = key →
        _GetAdditionalProperty (pre ++ p :: suf) key d = p.value.getD d) ∧
    (∀ (props : List Property) (key d : String),
        (∀ q ∈ props, q.key ≠ key) → _GetAdditionalProperty props key d = d) ∧
    _GetAdditionalProperty statProps "cpu_time" "Unknown" = "Unknown" ∧
    _GetAdditionalProperty statProps "elapsed_time" "Unknown" = "5ms" ∧
    _GetAdditionalProperty statProps "rows_scanned" "Unknown" = "Unknown" :=
  ⟨lookup_scan_first_match, lookup_no_match, rfl, rfl, rfl⟩

theorem c7_property_lookup_witness :
    _GetAdditionalProperty [⟨"a", some "1"⟩, ⟨"k", some "v"⟩, ⟨"k", some "w"⟩] "k" "d" = "v" :=
  c7_property_lookup.1 [⟨"a", some "1"⟩] ⟨"k", some "v"⟩ [⟨"k", some "w"⟩] "k" "d"
    (by decide) rfl

/-- C8: building and rendering the single-record input with kind `Root`
and name `X` writes exactly the one line `" Root X"` (empty stub, and the
single leading space from the line-format rule). -/
theorem c8_single_node_render :
    _ConvertToTree [singleRootRec] = Except.ok (some (Node.mk singleRootRec [])) ∧
    displayQueryPlan [singleRootRec] = Except.ok [" Root X"] :=
  ⟨rfl, rfl⟩

/-- C1 counterexample: on the two-child input with child indices 0 and 1,
the reverse scan stops at the index-0 record (Python `if node.index:` is
false for 0) and returns its node as the tree, so rendering writes the
single line `" A Foo"` instead of the three claimed lines. -/
theorem c1_counterexample :
    _ConvertToTree [c1Root, c1Child0, c1Child1] =
      Except.ok (some (Node.mk c1Child0 [])) ∧
    displayQueryPlan [c1Root, c1Child0, c1Child1] = Except.ok [" A Foo"] :=
  ⟨rfl, rfl⟩

/-- C1 amended: with the two children at the nonzero indices 1 and 2
(child links 1 then 2), the builder yields the root with the two children
in link order and rendering writes exactly the three claimed lines. -/
theorem c1_two_child_render_amended :
    _ConvertToTree [c1RootPos, c1Child1Pos, c1Child2Pos] =
      Except.ok (some (Node.mk c1RootPos
        [Node.mk c1Child1Pos [], Node.mk c1Child2Pos []])) ∧
    displayQueryPlan [c1RootPos, c1Child1Pos, c1Child2Pos] =
      Except.ok [" R X", "    +- A Foo", "    \\- B Bar"] :=
  ⟨rfl, rfl⟩

/-- C6 counterexample: in the input `[zeroIdxRec]` no record lacks an
index, yet the builder neither returns an absent result nor fails: the
index 0 is falsy, so the scan stops there and returns that node. -/
theorem c6_counterexample :
    (∀ p ∈ [zeroIdxRec], p.index ≠ none) ∧
    _ConvertToTree [zeroIdxRec] = Except.ok (some (Node.mk zeroIdxRec [])) :=
  ⟨by decide, rfl⟩

theorem renderChildren_enumFrom :
    ∀ (cs : List Node) (P : String) (k : Nat),
      renderChildren cs P =
        ((List.enumFrom k cs).map (fun ic =>
          prettyPrint ic.2 P (ic.1 == k + cs.length - 1) false)).flatten := by
  intro cs
  induction cs with
  | nil => intro P k; rfl
  | cons c cs ih =>
    intro P k
    cases cs with
    | nil =>
      simp only [renderChildren, List.enumFrom, List.map, List.length_cons,
        List.length_nil, Nat.zero_add, Nat.add_sub_cancel, beq_self_eq_true,
        List.flatten_cons, List.flatten_nil, List.append_nil]
    | cons c2 cs2 =>
      have hlen : k + (c :: c2 :: cs2).length - 1 = (k + 1) + (c2 :: cs2).length - 1 := by
        simp only [List.length_cons]; omega
      have hhead : (k == k + (c :: c2 :: cs2).length - 1) = false := by
        rw [Bool.eq_false_iff]
        simp only [ne_eq, beq_iff_eq, List.length_cons]
        omega
      simp only [renderChildren, List.enumFrom_cons, List.map_cons,
        List.flatten_cons, hhead]
      rw [ih P (k + 1)]
      rw [hlen]
      simp only [List.enumFrom_cons, List.map_cons, List.flatten_cons]

/-- C9: one rendering step. The emitted line carries the stub, which is
empty for the root, `"\-"` for a last child and `"+-"` otherwise; and
every child is rendered with the one prefix
`prepend + (" " if this node is last else "|") + "   "`, with `is_last`
true exactly for the final child — so the vertical connector column is
blank below a last child. -/
theorem c9_stub_and_child_prepend :
    ∀ (props : PlanNode) (cs : List Node) (prepend : String) (is_last is_root : Bool),
      prettyPrint (Node.mk props cs) prepend is_last is_root =
        (prepend ++ (if is_root then "" else if is_last then "\\-" else "+-")
          ++ " " ++ props.kind ++ " " ++ props.displayName)
        :: ((List.enum cs).map (fun ic =>
              prettyPrint ic.2 (prepend ++ (if is_last then " " else "|") ++ "   ")
                (ic.1 == cs.length - 1) false)).flatten := by
  intro props cs prepend is_last is_root
  simp only [prettyPrint]
  rw [renderChildren_enumFrom cs _ 0]
  simp only [List.enum, Nat.zero_add]

theorem resolvesIn_iff (k : Nat) (t : List PlanNode) :
    resolvesIn k t = true ↔ ∃ c ∈ t, c.index = some k := by
  simp [resolvesIn, List.any_eq_true]

theorem truthy_some {p : PlanNode} (h : indexTruthy p.index = true) :
    ∃ k, p.index = some k ∧ k ≠ 0 := by
  cases hpi : p.index with
  | none => rw [hpi] at h; simp [indexTruthy] at h
  | some k =>
    refine ⟨k, rfl, ?_⟩
    rw [hpi] at h
    simpa [indexTruthy] using h

theorem findTail_some_of_resolves {k : Nat} : ∀ {pool : List PlanNode},
    resolvesIn k pool = true → ∃ c t, findTail k pool = some (c, t) := by
  intro pool
  induction pool with
  | nil => intro h; simp [resolvesIn] at h
  | cons p t ih =>
    intro h
    by_cases hp : p.index = some k
    · exact ⟨p, t, by simp [findTail, hp]⟩
    · have ht : resolvesIn k t = true := by
        rcases (resolvesIn_iff k (p :: t)).1 h with ⟨c, hc, hck⟩
        rcases List.mem_cons.1 hc with rfl | hmem
        · exact absurd hck hp
        · exact (resolvesIn_iff k t).2 ⟨c, hmem, hck⟩
      rcases ih ht with ⟨c, t', h'⟩
      exact ⟨c, t', by simp [findTail, hp, h']⟩

theorem findTail_split {k : Nat} : ∀ {pool : List PlanNode} {c : PlanNode}
    {t : List PlanNode}, findTail k pool = some (c, t) →
    ∃ u, pool = u ++ c :: t ∧ c.index = some k ∧ ∀ x ∈ u, x.index ≠ some k := by
  intro pool
  induction pool with
  | nil => intro c t h; simp [findTail] at h
  | cons p t0 ih =>
    intro c t h
    simp only [findTail] at h
    split at h
    · rename_i hp
      cases h
      exact ⟨[], rfl, hp, by simp⟩
    · rename_i hp
      rcases ih h with ⟨u, heq, hk, hu⟩
      refine ⟨p :: u, by rw [heq]; rfl, hk, ?_⟩
      intro x hx
      rcases List.mem_cons.1 hx with rfl | hmem
      · exact hp
      · exact hu x hmem

theorem findTail_append_found {k : Nat} : ∀ {u : List PlanNode} {c : PlanNode}
    {t : List PlanNode} (z : List PlanNode), findTail k u = some (c, t) →
    findTail k (u ++ z) = some (c, t ++ z) := by
  intro u
  induction u with
  | nil => intro c t z h; simp [findTail] at h
  | cons p u0 ih =>
    intro c t z h
    simp only [findTail] at h
    split at h
    · rename_i hp
      cases h
      simp [findTail, hp]
    · rename_i hp
      simp only [List.cons_append, findTail, hp, if_neg]
      exact ih z h

theorem findTail_append_none {k : Nat} : ∀ {u : List PlanNode} (z : List PlanNode),
    (∀ x ∈ u, x.index ≠ some k) → findTail k (u ++ z) = findTail k z := by
  intro u
  induction u with
  | nil => intro z _; rfl
  | cons p u0 ih =>
    intro z hu
    have hp : p.index ≠ some k := hu p (List.mem_cons_self p u0)
    simp only [List.cons_append, findTail, hp, if_neg]
    exact ih z (fun x hx => hu x (List.mem_cons_of_mem p hx))

theorem fwdClosed_cons {p : PlanNode} {t : List PlanNode} :
    fwdClosed (p :: t) = true ↔
      (∀ k ∈ refsOf p, resolvesIn k t = true) ∧ fwdClosed t = true := by
  simp [fwdClosed, Bool.and_eq_true, List.all_eq_true]

theorem fwdClosed_at : ∀ {u : List PlanNode} {c : PlanNode} {t : List PlanNode},
    fwdClosed (u ++ c :: t) = true →
    (∀ k ∈ refsOf c, resolvesIn k t = true) ∧ fwdClosed t = true := by
  intro u
  induction u with
  | nil => intro c t h; exact fwdClosed_cons.1 h
  | cons p u0 ih =>
    intro c t h
    exact ih (fwdClosed_cons.1 h).2

theorem specBuildNode_eq (r : PlanNode) (pool : List PlanNode) :
    specBuildNode r pool = Option.map (Node.mk r) (specBuildForest r.childLinks pool) := by
  rw [specBuildNode]

theorem specBuildForest_nil (pool : List PlanNode) :
    specBuildForest [] pool = some [] := by
  rw [specBuildForest]

theorem specBuildForest_cons_none {l : ChildLink} {pool : List PlanNode}
    (ls : List ChildLink) (hft : findTail l.childIndex pool = none) :
    specBuildForest (l :: ls) pool = none := by
  rw [specBuildForest]
  split
  · rfl
  · rename_i c' t' heq
    rw [hft] at heq
    cases heq

theorem specBuildForest_cons_some {l : ChildLink} {pool : List PlanNode}
    {c : PlanNode} {t : List PlanNode} (ls : List ChildLink)
    (hft : findTail l.childIndex pool = some (c, t)) :
    specBuildForest (l :: ls) pool =
      match specBuildNode c t with
      | none => none
      | some n =>
        match specBuildForest ls pool with
        | none => none
        | some ns => some (n :: ns) := by
  rw [specBuildForest]
  split
  · rename_i heq
    rw [hft] at heq
    cases heq
  · rename_i c' t' heq
    rw [hft] at heq
    cases heq
    rfl

theorem specForest_success : ∀ (n : Nat) (pool : List PlanNode) (links : List ChildLink),
    pool.length ≤ n → fwdClosed pool = true →
    (∀ l ∈ links, resolvesIn l.childIndex pool = true) →
    ∃ cs, specBuildForest links pool = some cs := by
  intro n
  induction n with
  | zero =>
    intro pool links hlen hfwd hres
    cases links with
    | nil => exact ⟨[], specBuildForest_nil pool⟩
    | cons l ls =>
      have h1 := hres l (List.mem_cons_self l ls)
      have hpool : pool = [] := List.eq_nil_of_length_eq_zero (Nat.le_zero.1 hlen)
      rw [hpool] at h1
      simp [resolvesIn] at h1
  | succ n ih =>
    intro pool links hlen hfwd
    induction links with
    | nil => intro _; exact ⟨[], specBuildForest_nil pool⟩
    | cons l ls ihl =>
      intro hres
      have h1 := hres l (List.mem_cons_self l ls)
      rcases findTail_some_of_resolves h1 with ⟨c, t, hft⟩
      rcases findTail_split hft with ⟨u, hpool, hck, _⟩
      have hat := fwdClosed_at (by rw [← hpool]; exact hfwd)
      have htlen : t.length ≤ n := by
        have := findTail_length hft
        omega
      rcases ih t c.childLinks htlen hat.2
        (fun l' hl' => hat.1 l'.childIndex (List.mem_map_of_mem ChildLink.childIndex hl'))
        with ⟨cs0, hcs0⟩
      rcases ihl (fun l' hl' => hres l' (List.mem_cons_of_mem l hl')) with ⟨ns, hns⟩
      refine ⟨Node.mk c cs0 :: ns, ?_⟩
      rw [specBuildForest_cons_some ls hft, specBuildNode_eq, hcs0, hns]
      rfl

theorem buildChildren_eq_spec : ∀ (links : List ChildLink) (d : List (Nat × Node))
    (b : List PlanNode), dictMatches d b → fwdClosed b = true →
    (∀ l ∈ links, resolvesIn l.childIndex b = true) →
    ∃ cs, buildChildren links d = Except.ok cs ∧ specBuildForest links b = some cs := by
  intro links
  induction links with
  | nil => intro d b _ _ _; exact ⟨[], rfl, specBuildForest_nil b⟩
  | cons l ls ih =>
    intro d b hdict hfwd hres
    have h1 := hres l (List.mem_cons_self l ls)
    rcases findTail_some_of_resolves h1 with ⟨c, t, hft⟩
    rcases findTail_split hft with ⟨u, hpool, hck, _⟩
    have hat := fwdClosed_at (by rw [← hpool]; exact hfwd)
    rcases specForest_success t.length t c.childLinks (Nat.le_refl _) hat.2
      (fun l' hl' => hat.1 l'.childIndex (List.mem_map_of_mem ChildLink.childIndex hl'))
      with ⟨cs0, hcs0⟩
    have hnc : specBuildNode c t = some (Node.mk c cs0) := by
      rw [specBuildNode_eq, hcs0]
      rfl
    have hl : lookupDict d l.childIndex = some (Node.mk c cs0) := by
      rw [hdict l.childIndex, hft]
      exact hnc
    rcases ih d b hdict hfwd (fun l' hl' => hres l' (List.mem_cons_of_mem l hl'))
      with ⟨cs, hbc, hsf⟩
    refine ⟨Node.mk c cs0 :: cs, ?_, ?_⟩
    · simp [buildChildren, hl, hbc]
    · rw [specBuildForest_cons_some ls hft, hnc, hsf]

theorem convertLoop_dict : ∀ (b : List PlanNode),
    (∀ p ∈ b, indexTruthy p.index = true) →
    (idxOf b).Nodup → fwdClosed b = true →
    ∀ (x : List PlanNode),
    ∃ d, convertLoop (b.reverse ++ x) [] = convertLoop x d ∧ dictMatches d b := by
  intro b
  induction b with
  | nil =>
    intro _ _ _ x
    exact ⟨[], rfl, fun k => rfl⟩
  | cons p b ih =>
    intro htru hnodup hfwd x
    have hfc := fwdClosed_cons.1 hfwd
    obtain ⟨k, hpk, hk0⟩ := truthy_some (htru p (List.mem_cons_self p b))
    have hnodup' : (idxOf b).Nodup := by
      rw [show idxOf (p :: b) = k :: idxOf b from by simp [idxOf, hpk]] at hnodup
      exact hnodup.of_cons
    rcases ih (fun q hq => htru q (List.mem_cons_of_mem p hq)) hnodup' hfc.2 (p :: x)
      with ⟨d, hloop, hdict⟩
    rcases buildChildren_eq_spec p.childLinks d b hdict hfc.2
      (fun l hl => hfc.1 l.childIndex (List.mem_map_of_mem ChildLink.childIndex hl))
      with ⟨cs, hbc, hsf⟩
    refine ⟨(k, Node.mk p cs) :: d, ?_, ?_⟩
    · rw [show (p :: b).reverse ++ x = b.reverse ++ (p :: x) from by simp, hloop]
      simp [convertLoop, hbc, hpk, hk0]
    · intro j
      by_cases hj : k = j
      · subst hj
        have hhit : lookupDict ((k, Node.mk p cs) :: d) k = some (Node.mk p cs) := by
          simp [lookupDict]
        have hfd : findTail k (p :: b) = some (p, b) := by simp [findTail, hpk]
        rw [hhit, hfd]
        show some (Node.mk p cs) = specBuildNode p b
        rw [specBuildNode_eq, hsf]
        rfl
      · have hskip : lookupDict ((k, Node.mk p cs) :: d) j = lookupDict d j := by
          simp [lookupDict, hj]
        have hfd : findTail j (p :: b) = findTail j b := by
          have : p.index ≠ some j := by
            rw [hpk]
            intro h
            exact hj (Option.some_injective _ h)
          simp [findTail, this]
        rw [hskip, hfd]
        exact hdict j

theorem convert_ok_spec (root : PlanNode) (rest : List PlanNode)
    (hri : root.index = none)
    (htru : ∀ p ∈ rest, indexTruthy p.index = true)
    (hnodup : (idxOf rest).Nodup)
    (hfwd : fwdClosed (root :: rest) = true) :
    ∃ cs, specBuildForest root.childLinks rest = some cs ∧
      _ConvertToTree (root :: rest) = Except.ok (some (Node.mk root cs)) := by
  have hfc := fwdClosed_cons.1 hfwd
  rcases convertLoop_dict rest htru hnodup hfc.2 [root] with ⟨d, hloop, hdict⟩
  rcases buildChildren_eq_spec root.childLinks d rest hdict hfc.2
    (fun l hl => hfc.1 l.childIndex (List.mem_map_of_mem ChildLink.childIndex hl))
    with ⟨cs, hbc, hsf⟩
  refine ⟨cs, hsf, ?_⟩
  rw [_ConvertToTree, show (root :: rest).reverse = rest.reverse ++ [root] from by simp,
    hloop]
  simp [convertLoop, hbc, hri]

/-- C2 (amended: every non-root record carries a present and nonzero
index): for an input whose head is the single indexless record and whose
remaining records carry distinct nonzero indices with children after
parents, the reverse scan stops at the indexless record and returns its
node, which is exactly the tree the specification assigns to the input. -/
theorem c2_builder_refines_spec :
    ∀ (root : PlanNode) (rest : List PlanNode),
      root.index = none →
      (∀ p ∈ rest, indexTruthy p.index = true) →
      (idxOf rest).Nodup →
      fwdClosed (root :: rest) = true →
      ∃ n, specBuildNode root rest = some n ∧
        _ConvertToTree (root :: rest) = Except.ok (some n) ∧
        n.properties = root := by
  intro root rest hri htru hnodup hfwd
  rcases convert_ok_spec root rest hri htru hnodup hfwd with ⟨cs, hsf, hct⟩
  refine ⟨Node.mk root cs, ?_, hct, rfl⟩
  rw [specBuildNode_eq, hsf]
  rfl

/-- C2 counterexample: the input `[c1Root, c1Child0, c1Child1]` satisfies
every invariant of spec section 3 (one indexless record, distinct
indices, children after parents, tree-shaped references), yet the builder
returns the node of `c1Child0` — the record with index 0 — rather than
the node of the indexless record `c1Root`. -/
theorem c2_counterexample :
    WF3 [c1Root, c1Child0, c1Child1] ∧
    _ConvertToTree [c1Root, c1Child0, c1Child1] =
      Except.ok (some (Node.mk c1Child0 [])) ∧
    c1Child0 ≠ c1Root ∧ c1Root.index = none :=
  ⟨by decide, rfl, by decide, rfl⟩

theorem c2_witness :
    ∃ n, specBuildNode (⟨none, "R", "X", [⟨1⟩, ⟨2⟩]⟩ : PlanNode)
        [⟨some 1, "A", "Foo", []⟩, ⟨some 2, "B", "Bar", []⟩] = some n ∧
      _ConvertToTree [⟨none, "R", "X", [⟨1⟩, ⟨2⟩]⟩, ⟨some 1, "A", "Foo", []⟩,
        ⟨some 2, "B", "Bar", []⟩] = Except.ok (some n) ∧
      n.properties = (⟨none, "R", "X", [⟨1⟩, ⟨2⟩]⟩ : PlanNode) :=
  c2_builder_refines_spec ⟨none, "R", "X", [⟨1⟩, ⟨2⟩]⟩
    [⟨some 1, "A", "Foo", []⟩, ⟨some 2, "B", "Bar", []⟩]
    rfl (by decide) (by decide) (by decide)

theorem convertLoop_reach : ∀ (pre rest : List PlanNode) (d : List (Nat × Node)),
    (∀ q ∈ pre, indexTruthy q.index = true) →
    (∃ e, convertLoop (pre ++ rest) d = Except.error e) ∨
    (∃ d', convertLoop (pre ++ rest) d = convertLoop rest d' ∧
      ∀ k n, lookupDict d' k = some n →
        lookupDict d k ≠ none ∨ ∃ q ∈ pre, q.index = some k) := by
  intro pre
  induction pre with
  | nil =>
    intro rest d _
    right
    refine ⟨d, rfl, ?_⟩
    intro k n h
    left
    rw [h]
    exact Option.some_ne_none n
  | cons q pre ih =>
    intro rest d htru
    cases hbc : buildChildren q.childLinks d with
    | error e => exact Or.inl ⟨e, by simp [convertLoop, hbc]⟩
    | ok cs =>
      obtain ⟨k, hqk, hk0⟩ := truthy_some (htru q (List.mem_cons_self q pre))
      have step : convertLoop ((q :: pre) ++ rest) d =
          convertLoop (pre ++ rest) ((k, Node.mk q cs) :: d) := by
        simp [convertLoop, hbc, hqk, hk0]
      rcases ih rest ((k, Node.mk q cs) :: d)
        (fun r hr => htru r (List.mem_cons_of_mem q hr)) with ⟨e, he⟩ | ⟨d', hd', hkeys⟩
      · exact Or.inl ⟨e, by rw [step]; exact he⟩
      · right
        refine ⟨d', by rw [step]; exact hd', ?_⟩
        intro j n hj
        rcases hkeys j n hj with h | ⟨r, hr, hri⟩
        · by_cases hjk : k = j
          · exact Or.inr ⟨q, List.mem_cons_self q pre, hjk ▸ hqk⟩
          · left
            rwa [show lookupDict ((k, Node.mk q cs) :: d) j = lookupDict d j
              from by simp [lookupDict, hjk]] at h
        · exact Or.inr ⟨r, List.mem_cons_of_mem q hr, hri⟩

theorem buildChildren_fails : ∀ (links : List ChildLink) (d : List (Nat × Node)),
    (∃ l ∈ links, lookupDict d l.childIndex = none) →
    ∃ e, buildChildren links d = Except.error e := by
  intro links
  induction links with
  | nil => intro d h; simp at h
  | cons l ls ih =>
    intro d h
    cases hl : lookupDict d l.childIndex with
    | none => exact ⟨TreeError.keyError l.childIndex, by simp [buildChildren, hl]⟩
    | some c =>
      rcases h with ⟨l', hl', hnone⟩
      rcases List.mem_cons.1 hl' with rfl | hmem
      · rw [hl] at hnone
        cases hnone
      · rcases ih d ⟨l', hmem, hnone⟩ with ⟨e, he⟩
        exact ⟨e, by simp [buildChildren, hl, he]⟩

/-- C5: whenever the reverse scan actually reaches a record (every record
scanned before it has a truthy index, so no early return happened) one of
whose child links references an index absent from the mapping at lookup
time — the mapping's keys are exactly the indices of the already-scanned
records `pre`, so the hypothesis is that no record of `pre` carries the
referenced index — the builder raises the `KeyError`-class failure and
`DisplayQueryPlan` writes no tree output. This covers both a `childIndex`
matching no record of the input and an ordering violation where the
matching record has not been scanned yet. -/
theorem c5_malformed_reference :
    ∀ (ps pre : List PlanNode) (p : PlanNode) (suf : List PlanNode),
      ps.reverse = pre ++ p :: suf →
      (∀ q ∈ pre, indexTruthy q.index = true) →
      (∃ l ∈ p.childLinks, ∀ q ∈ pre, q.index ≠ some l.childIndex) →
      ∃ k, _ConvertToTree ps = Except.error (TreeError.keyError k) ∧
        displayQueryPlan ps = Except.error (DisplayError.lookupFailed k) := by
  intro ps pre p suf hrev htru hbad
  have hloop : _ConvertToTree ps = convertLoop (pre ++ p :: suf) [] := by
    rw [_ConvertToTree, hrev]
  rcases convertLoop_reach pre (p :: suf) [] htru with ⟨e, he⟩ | ⟨d', hd', hkeys⟩
  · cases e with
    | keyError k =>
      refine ⟨k, by rw [hloop]; exact he, ?_⟩
      rw [displayQueryPlan, hloop, he]
  · rcases hbad with ⟨l, hl, hnotin⟩
    have hnone : lookupDict d' l.childIndex = none := by
      cases hlk : lookupDict d' l.childIndex with
      | none => rfl
      | some n =>
        rcases hkeys l.childIndex n hlk with h | ⟨q, hq, hqi⟩
        · exact absurd rfl h
        · exact absurd hqi (hnotin q hq)
    rcases buildChildren_fails p.childLinks d' ⟨l, hl, hnone⟩ with ⟨e, he⟩
    cases e with
    | keyError k =>
      have hfinal : _ConvertToTree ps = Except.error (TreeError.keyError k) := by
        rw [hloop, hd']
        simp [convertLoop, he]
      refine ⟨k, hfinal, ?_⟩
      rw [displayQueryPlan, hfinal]

theorem c5_malformed_reference_witness :
    (∃ k, _ConvertToTree [⟨none, "R", "X", [⟨1⟩]⟩, ⟨some 1, "A", "F", [⟨5⟩]⟩] =
        Except.error (TreeError.keyError k) ∧
      displayQueryPlan [⟨none, "R", "X", [⟨1⟩]⟩, ⟨some 1, "A", "F", [⟨5⟩]⟩] =
        Except.error (DisplayError.lookupFailed k)) ∧
    (∃ k, _ConvertToTree [⟨some 2, "B", "G", []⟩, ⟨some 1, "A", "F", [⟨2⟩]⟩] =
        Except.error (TreeError.keyError k) ∧
      displayQueryPlan [⟨some 2, "B", "G", []⟩, ⟨some 1, "A", "F", [⟨2⟩]⟩] =
        Except.error (DisplayError.lookupFailed k)) :=
  ⟨c5_malformed_reference [⟨none, "R", "X", [⟨1⟩]⟩, ⟨some 1, "A", "F", [⟨5⟩]⟩]
    [] ⟨some 1, "A", "F", [⟨5⟩]⟩ [⟨none, "R", "X", [⟨1⟩]⟩]
    rfl (by decide) (by decide),
  c5_malformed_reference [⟨some 2, "B", "G", []⟩, ⟨some 1, "A", "F", [⟨2⟩]⟩]
    [] ⟨some 1, "A", "F", [⟨2⟩]⟩ [⟨some 2, "B", "G", []⟩]
    rfl (by decide) (by decide)⟩

/-- C6 (amended: every record has a present and *nonzero* index): the
reverse scan never returns a node, so the builder either propagates a
lookup failure or is exhausted and returns the absent result, without
raising an error of its own. A record with index 0 would instead be
treated as the root sentinel and returned (see the counterexample). -/
theorem c6_exhausted_scan_returns_nothing :
    ∀ ps : List PlanNode, (∀ p ∈ ps, indexTruthy p.index = true) →
      (∃ e, _ConvertToTree ps = Except.error e) ∨ _ConvertToTree ps = Except.ok none := by
  intro ps htru
  have h := convertLoop_reach ps.reverse [] []
    (fun q hq => htru q (List.mem_reverse.1 hq))
  rw [List.append_nil] at h
  rcases h with ⟨e, he⟩ | ⟨d', hd', _⟩
  · exact Or.inl ⟨e, he⟩
  · right
    rw [_ConvertToTree, hd']
    rfl

theorem c6_exhausted_scan_witness :
    (∃ e, _ConvertToTree [⟨some 1, "A", "F", []⟩, ⟨some 2, "B", "G", []⟩] =
        Except.error e) ∨
      _ConvertToTree [⟨some 1, "A", "F", []⟩, ⟨some 2, "B", "G", []⟩] =
        Except.ok none :=
  c6_exhausted_scan_returns_nothing [⟨some 1, "A", "F", []⟩, ⟨some 2, "B", "G", []⟩]
    (by decide)

/-- C10: a record whose index is the integer 0 is treated exactly like an
indexless record: the scan stops at it, returns its node built from the
current dictionary, and never stores it (first conjunct — the loop's
behaviour on an index-0 head is literally the behaviour on an index-free
head); consequently, the dictionary never holds key 0, so any record that
the scan actually reaches whose child links reference index 0 makes the
builder fail with a `KeyError` (second conjunct). -/
theorem c10_zero_index_root_sentinel :
    (∀ (p : PlanNode) (rest : List PlanNode) (d : List (Nat × Node)),
        p.index = some 0 ∨ p.index = none →
        convertLoop (p :: rest) d =
          match buildChildren p.childLinks d with
          | Except.error e => Except.error e
          | Except.ok cs => Except.ok (some (Node.mk p cs))) ∧
    (∀ (ps pre : List PlanNode) (p : PlanNode) (suf : List PlanNode),
        ps.reverse = pre ++ p :: suf →
        (∀ q ∈ pre, indexTruthy q.index = true) →
        (∃ l ∈ p.childLinks, l.childIndex = 0) →
        ∃ k, _ConvertToTree ps = Except.error (TreeError.keyError k)) := by
  constructor
  · intro p rest d h
    cases hbc : buildChildren p.childLinks d with
    | error e => rcases h with h | h <;> simp [convertLoop, hbc, h]
    | ok cs => rcases h with h | h <;> simp [convertLoop, hbc, h]
  · intro ps pre p suf hrev htru hbad
    have hloop : _ConvertToTree ps = convertLoop (pre ++ p :: suf) [] := by
      rw [_ConvertToTree, hrev]
    rcases convertLoop_reach pre (p :: suf) [] htru with ⟨e, he⟩ | ⟨d', hd', hkeys⟩
    · cases e with
      | keyError k => exact ⟨k, by rw [hloop]; exact he⟩
    · rcases hbad with ⟨l, hl, hl0⟩
      have hnone : lookupDict d' l.childIndex = none := by
        cases hlk : lookupDict d' l.childIndex with
        | none => rfl
        | some n =>
          rcases hkeys l.childIndex n hlk with h | ⟨q, hq, hqi⟩
          · exact absurd rfl h
          · obtain ⟨k, hqk, hk0⟩ := truthy_some (htru q hq)
            rw [hqk, hl0] at hqi
            exact absurd (Option.some_injective _ hqi) hk0
      rcases buildChildren_fails p.childLinks d' ⟨l, hl, hnone⟩ with ⟨e, he⟩
      cases e with
      | keyError k =>
        exact ⟨k, by rw [hloop, hd']; simp [convertLoop, he]⟩

theorem c10_zero_index_witness :
    convertLoop [⟨some 0, "Z", "Zed", []⟩] [] =
      Except.ok (some (Node.mk ⟨some 0, "Z", "Zed", []⟩ [])) ∧
    ∃ k, _ConvertToTree [⟨some 1, "A", "Q", [⟨0⟩]⟩] =
      Except.error (TreeError.keyError k) := by
  constructor
  · rw [c10_zero_index_root_sentinel.1 ⟨some 0, "Z", "Zed", []⟩ [] [] (Or.inl rfl)]
    rfl
  · exact c10_zero_index_root_sentinel.2 [⟨some 1, "A", "Q", [⟨0⟩]⟩] []
      ⟨some 1, "A", "Q", [⟨0⟩]⟩ [] rfl (by decide) ⟨⟨0⟩, by decide, rfl⟩

theorem buildChildren_good : ∀ (links : List ChildLink) (d : List (Nat × Node))
    (cs : List Node), goodDict d → buildChildren links d = Except.ok cs →
    cs.map (fun c => c.properties.index) = links.map (fun l => some l.childIndex) ∧
    ∀ c ∈ cs, ∀ m, Subnode m c → childLinkMatch m := by
  intro links
  induction links with
  | nil =>
    intro d cs _ h
    simp only [buildChildren] at h
    cases h
    exact ⟨rfl, by simp⟩
  | cons l ls ih =>
    intro d cs hgood h
    simp only [buildChildren] at h
    cases hlk : lookupDict d l.childIndex with
    | none => rw [hlk] at h; cases h
    | some c =>
      rw [hlk] at h
      cases hbc : buildChildren ls d with
      | error e => rw [hbc] at h; cases h
      | ok cs' =>
        rw [hbc] at h
        cases h
        rcases ih d cs' hgood hbc with ⟨hmap, hall⟩
        rcases hgood l.childIndex c hlk with ⟨hc, hci⟩
        constructor
        · simp only [List.map_cons, hmap, hci]
        · intro c0 hc0
          rcases List.mem_cons.1 hc0 with rfl | hmem
          · exact hc
          · exact hall c0 hmem

theorem convertLoop_good : ∀ (l : List PlanNode) (d : List (Nat × Node)),
    goodDict d → ∀ n, convertLoop l d = Except.ok (some n) →
    ∀ m, Subnode m n → childLinkMatch m := by
  intro l
  induction l with
  | nil => intro d _ n h; cases h
  | cons p rest ih =>
    intro d hgood n h
    cases hbc : buildChildren p.childLinks d with
    | error e =>
      rw [show convertLoop (p :: rest) d = Except.error e from by
        simp [convertLoop, hbc]] at h
      cases h
    | ok cs =>
      rcases buildChildren_good p.childLinks d cs hgood hbc with ⟨hmap, hall⟩
      have hmk : ∀ m, Subnode m (Node.mk p cs) → childLinkMatch m := by
        intro m hm
        cases hm with
        | refl => exact hmap
        | child hsub hmem => exact hall _ hmem m hsub
      cases hpi : p.index with
      | none =>
        rw [show convertLoop (p :: rest) d = Except.ok (some (Node.mk p cs)) from by
          simp [convertLoop, hbc, hpi]] at h
        cases h
        exact hmk
      | some k =>
        by_cases hk : k = 0
        · subst hk
          rw [show convertLoop (p :: rest) d = Except.ok (some (Node.mk p cs)) from by
            simp [convertLoop, hbc, hpi]] at h
          cases h
          exact hmk
        · rw [show convertLoop (p :: rest) d = convertLoop rest ((k, Node.mk p cs) :: d)
            from by simp [convertLoop, hbc, hpi, hk]] at h
          refine ih ((k, Node.mk p cs) :: d) ?_ n h
          intro j m hj
          by_cases hjk : k = j
          · subst hjk
            simp only [lookupDict, if_pos rfl] at hj
            cases hj
            exact ⟨hmk, hpi⟩
          · rw [show lookupDict ((k, Node.mk p cs) :: d) j = lookupDict d j
              from by simp [lookupDict, hjk]] at hj
            exact hgood j m hj

/-- C4: whenever the builder returns a tree (in particular on every
well-formed input), every node of that tree has exactly one child per
child link of its record, in the same order: the i-th child wraps the
record indexed by the i-th `childIndex`. -/
theorem c4_children_in_link_order :
    ∀ (ps : List PlanNode) (n : Node), _ConvertToTree ps = Except.ok (some n) →
      ∀ m, Subnode m n →
        m.children.map (fun c => c.properties.index) =
          m.properties.childLinks.map (fun l => some l.childIndex) := by
  intro ps n h m hm
  have hgood : goodDict [] := by
    intro k n' h'
    simp [lookupDict] at h'
  exact convertLoop_good ps.reverse [] hgood n h m hm

theorem c4_children_in_link_order_witness :
    (Node.mk ⟨none, "R", "X", [⟨1⟩]⟩ [Node.mk ⟨some 1, "A", "F", []⟩ []]).children.map
        (fun c => c.properties.index) =
      (Node.mk ⟨none, "R", "X", [⟨1⟩]⟩
        [Node.mk ⟨some 1, "A", "F", []⟩ []]).properties.childLinks.map
        (fun l => some l.childIndex) :=
  c4_children_in_link_order [⟨none, "R", "X", [⟨1⟩]⟩, ⟨some 1, "A", "F", []⟩]
    (Node.mk ⟨none, "R", "X", [⟨1⟩]⟩ [Node.mk ⟨some 1, "A", "F", []⟩ []]) rfl
    (Node.mk ⟨none, "R", "X", [⟨1⟩]⟩ [Node.mk ⟨some 1, "A", "F", []⟩ []])
    (Subnode.refl _)

theorem allRefs_append : ∀ (a b : List PlanNode),
    allRefs (a ++ b) = allRefs a ++ allRefs b := by
  intro a b
  induction a with
  | nil => rfl
  | cons p a ih => simp [allRefs, ih]

theorem recordsList_append : ∀ (a b : List Node),
    recordsList (a ++ b) = recordsList a ++ recordsList b := by
  intro a b
  induction a with
  | nil => rfl
  | cons c a ih => simp [recordsList, ih]

theorem idxOf_append (a b : List PlanNode) : idxOf (a ++ b) = idxOf a ++ idxOf b := by
  simp [idxOf]

theorem idxOf_cons_some {p : PlanNode} {k : Nat} (t : List PlanNode)
    (h : p.index = some k) : idxOf (p :: t) = k :: idxOf t := by
  simp [idxOf, h]

theorem specForest_cons_inv {l : ChildLink} {ls : List ChildLink}
    {pool : List PlanNode} {cs : List Node}
    (h : specBuildForest (l :: ls) pool = some cs) :
    ∃ c t nc ns, findTail l.childIndex pool = some (c, t) ∧
      specBuildNode c t = some nc ∧ specBuildForest ls pool = some ns ∧
      cs = nc :: ns := by
  rw [specBuildForest] at h
  split at h
  · cases h
  · rename_i c t heq
    split at h
    · cases h
    · rename_i nc hnc
      split at h
      · cases h
      · rename_i ns hns
        cases h
        exact ⟨c, t, nc, ns, heq, hnc, hns, rfl⟩

theorem specNode_inv {r : PlanNode} {pool : List PlanNode} {n : Node}
    (h : specBuildNode r pool = some n) :
    ∃ cs, specBuildForest r.childLinks pool = some cs ∧ n = Node.mk r cs := by
  rw [specBuildNode_eq] at h
  cases hsf : specBuildForest r.childLinks pool with
  | none => rw [hsf] at h; cases h
  | some cs =>
    rw [hsf] at h
    cases h
    exact ⟨cs, rfl, rfl⟩

theorem specForest_append : ∀ (L1 L2 : List ChildLink) (pool : List PlanNode)
    (cs1 cs2 : List Node), specBuildForest L1 pool = some cs1 →
    specBuildForest L2 pool = some cs2 →
    specBuildForest (L1 ++ L2) pool = some (cs1 ++ cs2) := by
  intro L1
  induction L1 with
  | nil =>
    intro L2 pool cs1 cs2 h1 h2
    rw [specBuildForest_nil] at h1
    cases h1
    exact h2
  | cons l ls ih =>
    intro L2 pool cs1 cs2 h1 h2
    rcases specForest_cons_inv h1 with ⟨c, t, nc, ns, hft, hnc, hns, rfl⟩
    rw [List.cons_append, specBuildForest_cons_some (ls ++ L2) hft, hnc,
      ih L2 pool ns cs2 hns h2]
    rfl

mutual

theorem nodeCount_records : ∀ n : Node, nodeCount n = (recordsOf n).length
  | Node.mk p cs => by
    rw [nodeCount, recordsOf, List.length_cons, nodeCountList_records cs]
    omega

theorem nodeCountList_records : ∀ cs : List Node,
    nodeCountList cs = (recordsList cs).length
  | [] => rfl
  | c :: cs => by
    rw [nodeCountList, recordsList, List.length_append, nodeCount_records c,
      nodeCountList_records cs]

end

theorem fwd_ref_in_tail : ∀ (t : List PlanNode) (p : PlanNode) (k : Nat),
    fwdClosed (p :: t) = true → k ∈ allRefs (p :: t) → ∃ c ∈ t, c.index = some k := by
  intro t
  induction t with
  | nil =>
    intro p k hfwd hk
    simp only [allRefs, List.append_nil] at hk
    have := (fwdClosed_cons.1 hfwd).1 k hk
    simp [resolvesIn] at this
  | cons q t ih =>
    intro p k hfwd hk
    rcases List.mem_append.1 hk with hk | hk
    · exact (resolvesIn_iff k (q :: t)).1 ((fwdClosed_cons.1 hfwd).1 k hk)
    · rcases ih q k (fwdClosed_cons.1 hfwd).2 hk with ⟨c, hc, hck⟩
      exact ⟨c, List.mem_cons_of_mem q hc, hck⟩

theorem allperm_pool_empty : ∀ (pool : List PlanNode),
    (∀ p ∈ pool, p.index ≠ none) → (idxOf pool).Nodup → fwdClosed pool = true →
    (allRefs pool).Perm (idxOf pool) → pool = [] := by
  intro pool hidx hnodup hfwd hperm
  cases pool with
  | nil => rfl
  | cons p t =>
    exfalso
    obtain ⟨k, hpk⟩ : ∃ k, p.index = some k := by
      cases hpi : p.index with
      | none => exact absurd hpi (hidx p (List.mem_cons_self p t))
      | some k => exact ⟨k, rfl⟩
    have hkidx : k ∈ idxOf (p :: t) := by
      rw [idxOf_cons_some t hpk]
      exact List.mem_cons_self k _
    have hkref : k ∈ allRefs (p :: t) := hperm.mem_iff.2 hkidx
    rcases fwd_ref_in_tail t p k hfwd hkref with ⟨c, hc, hck⟩
    have hkt : k ∈ idxOf t := by
      simp only [idxOf, List.mem_filterMap]
      exact ⟨c, hc, hck⟩
    rw [idxOf_cons_some t hpk] at hnodup
    exact (List.nodup_cons.1 hnodup).1 hkt

theorem resolvesIn_erase {u t : List PlanNode} {c : PlanNode} {j k : Nat}
    (hcj : c.index = some j) (hkj : k ≠ j)
    (h : resolvesIn k (u ++ c :: t) = true) : resolvesIn k (u ++ t) = true := by
  rcases (resolvesIn_iff k (u ++ c :: t)).1 h with ⟨x, hx, hxk⟩
  apply (resolvesIn_iff k (u ++ t)).2
  rcases List.mem_append.1 hx with hx | hx
  · exact ⟨x, List.mem_append_left t hx, hxk⟩
  · rcases List.mem_cons.1 hx with rfl | hx
    · rw [hcj] at hxk
      exact absurd (Option.some_injective _ hxk).symm hkj
    · exact ⟨x, List.mem_append_right u hx, hxk⟩

theorem fwdClosed_erase : ∀ (u : List PlanNode) (t : List PlanNode) (c : PlanNode)
    (j : Nat), c.index = some j → j ∉ allRefs u → j ∉ allRefs t →
    fwdClosed (u ++ c :: t) = true → fwdClosed (u ++ t) = true := by
  intro u
  induction u with
  | nil =>
    intro t c j _ _ _ hfwd
    exact (fwdClosed_cons.1 hfwd).2
  | cons p u ih =>
    intro t c j hcj hju hjt hfwd
    have hju' : j ∉ allRefs u := fun h => hju (by
      simp only [allRefs, List.mem_append]
      exact Or.inr h)
    have hjp : j ∉ refsOf p := fun h => hju (by
      simp only [allRefs, List.mem_append]
      exact Or.inl h)
    have hfc := fwdClosed_cons.1 hfwd
    apply fwdClosed_cons.2
    constructor
    · intro k hk
      have hkj : k ≠ j := fun h => hjp (h ▸ hk)
      exact resolvesIn_erase hcj hkj (hfc.1 k hk)
    · exact ih t c j hcj hju' hjt hfc.2

theorem findTail_none_no_match {k : Nat} : ∀ {u : List PlanNode},
    findTail k u = none → ∀ x ∈ u, x.index ≠ some k := by
  intro u
  induction u with
  | nil => intro _ x hx; simp at hx
  | cons p u ih =>
    intro h x hx
    simp only [findTail] at h
    split at h
    · cases h
    · rename_i hp
      rcases List.mem_cons.1 hx with rfl | hmem
      · exact hp
      · exact ih h x hmem

theorem specForest_widen : ∀ (L : List ChildLink) (u t : List PlanNode),
    (idxOf (u ++ t)).Nodup →
    (∀ l ∈ L, resolvesIn l.childIndex t = true) →
    specBuildForest L (u ++ t) = specBuildForest L t := by
  intro L
  induction L with
  | nil => intro u t _ _; rw [specBuildForest_nil, specBuildForest_nil]
  | cons l ls ih =>
    intro u t hnodup hres
    have h1 := hres l (List.mem_cons_self l ls)
    rcases findTail_some_of_resolves h1 with ⟨c, t2, hft⟩
    have hnu : ∀ x ∈ u, x.index ≠ some l.childIndex := by
      intro x hx hxk
      rcases findTail_split hft with ⟨u0, ht, hck, _⟩
      have hk1 : l.childIndex ∈ idxOf u := List.mem_filterMap.2 ⟨x, hx, hxk⟩
      have hk2 : l.childIndex ∈ idxOf t := by
        refine List.mem_filterMap.2 ⟨c, ?_, hck⟩
        rw [ht]
        exact List.mem_append_right u0 (List.mem_cons_self c t2)
      rw [idxOf_append] at hnodup
      exact (List.nodup_append.1 hnodup).2.2 hk1 hk2
    have hftu : findTail l.childIndex (u ++ t) = some (c, t2) := by
      rw [findTail_append_none t hnu, hft]
    rw [specBuildForest_cons_some ls hftu, specBuildForest_cons_some ls hft,
      ih u t hnodup (fun l' hl' => hres l' (List.mem_cons_of_mem l hl'))]

theorem specForest_erase : ∀ (n : Nat) (L : List ChildLink) (u t : List PlanNode)
    (c : PlanNode) (j : Nat),
    (u ++ c :: t).length ≤ n → c.index = some j →
    j ∉ linkRefs L → j ∉ allRefs u → j ∉ allRefs t →
    specBuildForest L (u ++ c :: t) = specBuildForest L (u ++ t) := by
  intro n
  induction n with
  | zero =>
    intro L u t c j hlen _ _ _ _
    exfalso
    simp [List.length_append] at hlen
  | succ n ihn =>
    intro L
    induction L with
    | nil => intro u t c j _ _ _ _ _; rw [specBuildForest_nil, specBuildForest_nil]
    | cons l ls ihl =>
      intro u t c j hlen hcj hjL hju hjt
      have hkj : l.childIndex ≠ j := by
        intro h
        exact hjL (h ▸ List.mem_cons_self l.childIndex (linkRefs ls))
      have hjls : j ∉ linkRefs ls := fun h => hjL (List.mem_cons_of_mem _ h)
      cases hfu : findTail l.childIndex u with
      | some ct =>
        obtain ⟨c1, t1⟩ := ct
        have hft1 : findTail l.childIndex (u ++ c :: t) = some (c1, t1 ++ c :: t) :=
          findTail_append_found _ hfu
        have hft2 : findTail l.childIndex (u ++ t) = some (c1, t1 ++ t) :=
          findTail_append_found _ hfu
        rcases findTail_split hfu with ⟨u0, hu0, hc1k, _⟩
        have hjc1 : j ∉ linkRefs c1.childLinks := by
          intro h
          apply hju
          rw [hu0, allRefs_append]
          refine List.mem_append_right _ ?_
          simp only [allRefs]
          exact List.mem_append_left _ h
        have hjt1 : j ∉ allRefs t1 := by
          intro h
          apply hju
          rw [hu0, allRefs_append]
          refine List.mem_append_right _ ?_
          simp only [allRefs]
          exact List.mem_append_right _ h
        have hlen1 : (t1 ++ c :: t).length ≤ n := by
          have ht1u : t1.length < u.length := by
            rw [hu0]
            simp [List.length_append]
            omega
          simp only [List.length_append, List.length_cons] at hlen ⊢
          omega
        have hnode : specBuildNode c1 (t1 ++ c :: t) = specBuildNode c1 (t1 ++ t) := by
          rw [specBuildNode_eq, specBuildNode_eq,
            ihn c1.childLinks t1 t c j hlen1 hcj hjc1 hjt1 hjt]
        rw [specBuildForest_cons_some ls hft1, specBuildForest_cons_some ls hft2,
          hnode, ihl u t c j hlen hcj hjls hju hjt]
      | none =>
        have hnomatch := findTail_none_no_match hfu
        have h1 : findTail l.childIndex (u ++ c :: t) = findTail l.childIndex (c :: t) :=
          findTail_append_none _ hnomatch
        have h2 : findTail l.childIndex (u ++ t) = findTail l.childIndex t :=
          findTail_append_none _ hnomatch
        have hcskip : findTail l.childIndex (c :: t) = findTail l.childIndex t := by
          simp only [findTail]
          rw [if_neg]
          intro h
          rw [hcj] at h
          exact hkj (Option.some_injective _ h).symm
        cases hftt : findTail l.childIndex t with
        | none =>
          rw [specBuildForest_cons_none ls (by rw [h1, hcskip, hftt]),
            specBuildForest_cons_none ls (by rw [h2, hftt])]
        | some ct2 =>
          obtain ⟨c2, t2⟩ := ct2
          have hf1 : findTail l.childIndex (u ++ c :: t) = some (c2, t2) := by
            rw [h1, hcskip, hftt]
          have hf2 : findTail l.childIndex (u ++ t) = some (c2, t2) := by
            rw [h2, hftt]
          rw [specBuildForest_cons_some ls hf1, specBuildForest_cons_some ls hf2,
            ihl u t c j hlen hcj hjls hju hjt]

theorem specForest_records_perm : ∀ (n : Nat) (pool : List PlanNode)
    (L : List ChildLink) (cs : List Node),
    pool.length ≤ n →
    (∀ p ∈ pool, p.index ≠ none) →
    (idxOf pool).Nodup →
    fwdClosed pool = true →
    (linkRefs L ++ allRefs pool).Perm (idxOf pool) →
    specBuildForest L pool = some cs →
    (recordsList cs).Perm pool := by
  intro n
  induction n with
  | zero =>
    intro pool L cs hlen _ _ _ hperm hbuild
    cases pool with
    | cons p t => simp [List.length_cons] at hlen
    | nil =>
      have h0 : (linkRefs L).Perm [] := by simpa [allRefs, idxOf] using hperm
      have hL : L = [] := by
        cases L with
        | nil => rfl
        | cons l ls => simp [linkRefs] at h0
      subst hL
      rw [specBuildForest_nil] at hbuild
      cases hbuild
      exact List.Perm.refl _
  | succ n ihn =>
    intro pool L cs hlen hidx hnodup hfwd hperm hbuild
    cases L with
    | nil =>
      rw [specBuildForest_nil] at hbuild
      cases hbuild
      have hpool : pool = [] := allperm_pool_empty pool hidx hnodup hfwd
        (by simpa [linkRefs] using hperm)
      rw [hpool]
      exact List.Perm.refl _
    | cons l ls =>
      rcases specForest_cons_inv hbuild with ⟨c, t, nc, ns, hft, hnc, hns, rfl⟩
      rcases specNode_inv hnc with ⟨csc, hcsc, rfl⟩
      rcases findTail_split hft with ⟨u, hpool, hck, hu⟩
      subst hpool
      have h1 := List.perm_iff_count.1 hperm l.childIndex
      have h2 := List.nodup_iff_count_le_one.1 hnodup l.childIndex
      simp only [linkRefs, refsOf, List.map_cons, List.map_append, allRefs_append,
        allRefs, idxOf_append, idxOf_cons_some t hck, List.count_append,
        List.count_cons_self] at h1 h2
      have hall0 : (ls.map ChildLink.childIndex).count l.childIndex = 0 ∧
          (allRefs u).count l.childIndex = 0 ∧
          (c.childLinks.map ChildLink.childIndex).count l.childIndex = 0 ∧
          (allRefs t).count l.childIndex = 0 ∧
          (idxOf u).count l.childIndex = 0 ∧
          (idxOf t).count l.childIndex = 0 := by
        refine ⟨?_, ?_, ?_, ?_, ?_, ?_⟩ <;> omega
      obtain ⟨hzls, hzau, hzrc, hzat, hziu, hzit⟩ := hall0
      have hnls : l.childIndex ∉ linkRefs ls := List.count_eq_zero.1 hzls
      have hnau : l.childIndex ∉ allRefs u := List.count_eq_zero.1 hzau
      have hnat : l.childIndex ∉ allRefs t := List.count_eq_zero.1 hzat
      have hns' : specBuildForest ls (u ++ t) = some ns := by
        rw [← specForest_erase ((u ++ c :: t).length) ls u t c l.childIndex
          (Nat.le_refl _) hck hnls hnau hnat]
        exact hns
      have hnodup_ut : (idxOf (u ++ t)).Nodup := by
        rw [List.nodup_iff_count_le_one]
        intro a
        have h2a := List.nodup_iff_count_le_one.1 hnodup a
        simp only [idxOf_append, idxOf_cons_some t hck, List.count_append,
          List.count_cons] at h2a ⊢
        omega
      have hfwd_at := fwdClosed_at hfwd
      have hcsc' : specBuildForest c.childLinks (u ++ t) = some csc := by
        rw [specForest_widen c.childLinks u t hnodup_ut
          (fun l' hl' => hfwd_at.1 l'.childIndex
            (List.mem_map_of_mem ChildLink.childIndex hl'))]
        exact hcsc
      have hcomb : specBuildForest (c.childLinks ++ ls) (u ++ t) = some (csc ++ ns) :=
        specForest_append _ _ _ _ _ hcsc' hns'
      have hlen' : (u ++ t).length ≤ n := by
        simp only [List.length_append, List.length_cons] at hlen ⊢
        omega
      have hidx' : ∀ p ∈ u ++ t, p.index ≠ none := by
        intro p hp
        rcases List.mem_append.1 hp with hp | hp
        · exact hidx p (List.mem_append_left _ hp)
        · exact hidx p (List.mem_append_right _ (List.mem_cons_of_mem c hp))
      have hfwd' : fwdClosed (u ++ t) = true :=
        fwdClosed_erase u t c l.childIndex hck hnau hnat hfwd
      have hperm' : (linkRefs (c.childLinks ++ ls) ++ allRefs (u ++ t)).Perm
          (idxOf (u ++ t)) := by
        apply List.perm_iff_count.2
        intro a
        have ha := List.perm_iff_count.1 hperm a
        simp only [linkRefs, refsOf, List.map_cons, List.map_append, allRefs_append,
          allRefs, idxOf_append, idxOf_cons_some t hck, List.count_append,
          List.count_cons] at ha ⊢
        omega
      have hrec := ihn (u ++ t) (c.childLinks ++ ls) (csc ++ ns) hlen' hidx'
        hnodup_ut hfwd' hperm' hcomb
      apply List.perm_iff_count.2
      intro a
      have ha := List.perm_iff_count.1 hrec a
      simp only [recordsList, recordsOf, recordsList_append, List.count_append,
        List.count_cons] at ha ⊢
      omega

/-- C3 (amended: every non-root record carries a present and nonzero
index): on well-formed input of N records the built tree wraps exactly
the N input records, one node per record — its record list is a
permutation of the input — so it has exactly N nodes. -/
theorem c3_cardinality :
    ∀ (root : PlanNode) (rest : List PlanNode),
      root.index = none →
      (∀ p ∈ rest, indexTruthy p.index = true) →
      (idxOf rest).Nodup →
      fwdClosed (root :: rest) = true →
      (refsOf root ++ allRefs rest).Perm (idxOf rest) →
      ∃ n, _ConvertToTree (root :: rest) = Except.ok (some n) ∧
        (recordsOf n).Perm (root :: rest) ∧
        nodeCount n = (root :: rest).length := by
  intro root rest hri htru hnodup hfwd hperm
  rcases convert_ok_spec root rest hri htru hnodup hfwd with ⟨cs, hsf, hct⟩
  have hidx : ∀ p ∈ rest, p.index ≠ none := by
    intro p hp h
    obtain ⟨k, hk, _⟩ := truthy_some (htru p hp)
    rw [h] at hk
    cases hk
  have hrec := specForest_records_perm rest.length rest root.childLinks cs
    (Nat.le_refl _) hidx hnodup (fwdClosed_cons.1 hfwd).2 hperm hsf
  have hre : recordsOf (Node.mk root cs) = root :: recordsList cs := by
    rw [recordsOf]
  refine ⟨Node.mk root cs, hct, ?_, ?_⟩
  · rw [hre]
    exact hrec.cons root
  · rw [nodeCount_records, hre, List.length_cons, List.length_cons, hrec.length_eq]

/-- C3 counterexample: the three-record input `[c1Root, c1Child0,
c1Child1]` satisfies all invariants of spec section 3, yet the built tree
has exactly one node, not three: the index-0 record is returned alone as
the root. -/
theorem c3_counterexample :
    WF3 [c1Root, c1Child0, c1Child1] ∧
    _ConvertToTree [c1Root, c1Child0, c1Child1] =
      Except.ok (some (Node.mk c1Child0 [])) ∧
    nodeCount (Node.mk c1Child0 []) = 1 ∧
    ([c1Root, c1Child0, c1Child1] : List PlanNode).length = 3 :=
  ⟨by decide, rfl, by rw [nodeCount, nodeCountList], rfl⟩

theorem c3_cardinality_witness :
    ∃ n, _ConvertToTree [⟨none, "R", "X", [⟨1⟩, ⟨2⟩]⟩, ⟨some 1, "A", "Foo", []⟩,
        ⟨some 2, "B", "Bar", []⟩] = Except.ok (some n) ∧
      (recordsOf n).Perm [⟨none, "R", "X", [⟨1⟩, ⟨2⟩]⟩, ⟨some 1, "A", "Foo", []⟩,
        ⟨some 2, "B", "Bar", []⟩] ∧
      nodeCount n = ([⟨none, "R", "X", [⟨1⟩, ⟨2⟩]⟩, ⟨some 1, "A", "Foo", []⟩,
        ⟨some 2, "B", "Bar", []⟩] : List PlanNode).length :=
  c3_cardinality ⟨none, "R", "X", [⟨1⟩, ⟨2⟩]⟩
    [⟨some 1, "A", "Foo", []⟩, ⟨some 2, "B", "Bar", []⟩]
    rfl (by decide) (by decide) (by decide) (by decide)
